import Mathlib

/-!
Verification of the ifql query planner, storage source and stddev
aggregator against their natural-language specification.

The Go code is shallowly embedded:
* pointers to `Procedure` structs shared between the logical plan and the
  physical plan are modelled by a single association list (`heap`) that is
  updated in place and never shrinks, while the physical plan's map
  membership is tracked separately (`members`);
* Go `nil`-pointer panics and failed type assertions are modelled by
  `Option` (`none` = the program would panic);
* unbounded Go loops and recursion over a possibly cyclic procedure graph
  are modelled with a fuel parameter (`none` also covers fuel exhaustion;
  all theorems are stated for runs that complete);
* `float64` is modelled by exact rationals (and reals for `math.Sqrt`),
  with `math.NaN()` results modelled as `Option.none`;
* `execute.Time` and `execute.Duration` (their defining file is not part
  of the provided sources) are modelled from the spec as signed
  nanosecond ticks, here unbounded `Int`.
-/

namespace plan

/-- Procedure identifiers (`plan.ProcedureID`); modelled as naturals. -/
abbrev ProcedureID := Nat

/-- `plan.ProcedureKind` is a string in the source. -/
abbrev ProcedureKind := String

/-- Opaque payload standing for a predicate expression AST
(`*storage.Predicate` / expression body); the planner only carries it. -/
abbrev PredicateExp := Nat

/-- Modelled from the spec: `query.Time` resolves either a relative or an
absolute time (its defining file is not under the provided sources); the
planner only stores and copies these values. -/
structure QueryTime where
  IsRelative : Bool
  Relative : Int
  Absolute : Int
deriving DecidableEq

/-- `plan.BoundsSpec` as used by `RangeProcedureSpec`. -/
structure BoundsSpec where
  Start : QueryTime
  Stop : QueryTime
deriving DecidableEq

/-- `query.ExpressionSpec`: carries the predicate used by `where`. -/
structure ExpressionSpec where
  Predicate : PredicateExp
deriving DecidableEq

end plan

namespace functions

/-- Modelled from the spec: `SelectProcedureSpec` (its defining file is not
under the provided sources); the fields are exactly those read and written
by `RangeProcedureSpec.PushDown` and `WhereProcedureSpec.PushDown`, plus
the database name the spec describes. -/
structure SelectProcedureSpec where
  Database : String
  BoundsSet : Bool
  Bounds : plan.BoundsSpec
  WhereSet : Bool
  Where : plan.PredicateExp
deriving DecidableEq

/-- `functions.RangeProcedureSpec`. -/
structure RangeProcedureSpec where
  Bounds : plan.BoundsSpec
deriving DecidableEq

/-- `functions.WhereProcedureSpec`. -/
structure WhereProcedureSpec where
  Exp : plan.ExpressionSpec
deriving DecidableEq

/-- Kind constant `functions.SelectKind` (value from the spec's kind
vocabulary; `select.go` is not under the provided sources). -/
def SelectKind : plan.ProcedureKind := "select"

/-- Kind constant `functions.RangeKind`. -/
def RangeKind : plan.ProcedureKind := "range"

/-- Kind constant `functions.WhereKind`. -/
def WhereKind : plan.ProcedureKind := "where"

/-- Kind constant `functions.LimitKind` (value from the spec's kind
vocabulary; `limit.go` is not under the provided sources). -/
def LimitKind : plan.ProcedureKind := "limit"

end functions

namespace plan

/-- Closure of the `plan.ProcedureSpec` interface over the spec variants
the provided sources implement; `other` covers every further kind
(aggregates, `from`, ...), none of which implements `PushDownProcedureSpec`
in the provided sources. -/
inductive ProcedureSpec where
  | select (s : functions.SelectProcedureSpec)
  | range (s : functions.RangeProcedureSpec)
  | whereSpec (s : functions.WhereProcedureSpec)
  | other (kind : ProcedureKind)
deriving DecidableEq

/-- `Spec.Kind()` dispatch. -/
def ProcedureSpec.Kind : ProcedureSpec → ProcedureKind
  | .select _ => functions.SelectKind
  | .range _ => functions.RangeKind
  | .whereSpec _ => functions.WhereKind
  | .other k => k

/-- `plan.Procedure`. -/
structure Procedure where
  ID : ProcedureID
  Spec : ProcedureSpec
  Parents : List ProcedureID
  Children : List ProcedureID
deriving DecidableEq

/-- `plan.PushDownRule`. -/
structure PushDownRule where
  Root : ProcedureKind
  Through : List ProcedureKind
deriving DecidableEq

/-- The interface query `pr.Spec.(PushDownProcedureSpec)` together with the
`PushDownRule()` method of `RangeProcedureSpec` and `WhereProcedureSpec`;
`none` means the spec does not implement the interface. -/
def ProcedureSpec.pushDownRule : ProcedureSpec → Option PushDownRule
  | .range _ => some ⟨functions.SelectKind, [functions.LimitKind, functions.WhereKind]⟩
  | .whereSpec _ => some ⟨functions.SelectKind, [functions.LimitKind, functions.RangeKind]⟩
  | _ => none

/-- `RangeProcedureSpec.PushDown` / `WhereProcedureSpec.PushDown`:
mutates the root's select spec in place; the type assertion
`root.Spec.(*SelectProcedureSpec)` panics (`none`) on any other spec. -/
def ProcedureSpec.PushDown : ProcedureSpec → Procedure → Option Procedure
  | .range s, root =>
    match root.Spec with
    | .select ss =>
      some { root with Spec := .select { ss with BoundsSet := true, Bounds := s.Bounds } }
    | _ => none
  | .whereSpec s, root =>
    match root.Spec with
    | .select ss =>
      some { root with Spec := .select { ss with WhereSet := true, Where := s.Exp.Predicate } }
    | _ => none
  | _, _ => none

/-- `plan.hasKind`. -/
def hasKind (kind : ProcedureKind) : List ProcedureKind → Bool
  | [] => false
  | k :: rest => if k = kind then true else hasKind kind rest

/-- `plan.removeID`: Go splices out the first occurrence of `remove`
(`ids[0:i] ++ ids[i+1:]`, which is `List.erase`) and `break`s; when
`remove` does not occur the loop never fires and the zero-length prefix
slice `ids[0:0]`, i.e. the empty list, is returned. -/
def removeID (ids : List ProcedureID) (remove : ProcedureID) : List ProcedureID :=
  if ids.contains remove then ids.erase remove else []

/-- Association-list lookup standing for a Go map read returning a shared
`*Procedure` (first binding wins; a Go map has unique keys). -/
def lookupProc : List (ProcedureID × Procedure) → ProcedureID → Option Procedure
  | [], _ => none
  | e :: rest, id => if e.1 = id then some e.2 else lookupProc rest id

/-- In-place mutation of the shared struct stored under a key. -/
def updateProc : List (ProcedureID × Procedure) → ProcedureID → Procedure →
    List (ProcedureID × Procedure)
  | [], _, _ => []
  | e :: rest, id, q =>
    if e.1 = id then (id, q) :: updateProc rest id q else e :: updateProc rest id q

/-- Go map-key insertion for `p.plan.Procedures[pr.ID] = pr`. -/
def insertKey (l : List ProcedureID) (id : ProcedureID) : List ProcedureID :=
  if l.contains id then l else l ++ [id]

/-- Go `delete(p.plan.Procedures, id)`. -/
def deleteKey (l : List ProcedureID) (id : ProcedureID) : List ProcedureID :=
  l.erase id

/-- The planner's state: `heap` is the shared pool of `*Procedure` structs
(aliased by the logical plan and `PlanSpec.Procedures`; never shrinks),
`members` the key set of `PlanSpec.Procedures`, `order` is
`PlanSpec.Order` and `results` is `PlanSpec.Results`. -/
structure PlannerState where
  heap : List (ProcedureID × Procedure)
  members : List ProcedureID
  order : List ProcedureID
  results : List ProcedureID
deriving DecidableEq

/-- Empty planner state, used as an `Option.getD` default. -/
def emptyState : PlannerState := ⟨[], [], [], []⟩

/-- `p.plan.Procedures[id]`: a read through the physical plan's map. -/
def planLookup (st : PlannerState) (id : ProcedureID) : Option Procedure :=
  if st.members.contains id then lookupProc st.heap id else none

/-- Write the struct shared under `id` (visible through both plans). -/
def heapUpdate (st : PlannerState) (id : ProcedureID) (q : Procedure) : PlannerState :=
  { st with heap := updateProc st.heap id q }

/-- The stable signature of the struct shared under a key: its `ID` field
and whether its spec implements `PushDownProcedureSpec`.  The physical
pass rewrites select specs and edge lists but never changes this
signature. -/
def pdSig (st : PlannerState) (k : ProcedureID) : Option (ProcedureID × Bool) :=
  (lookupProc st.heap k).map (fun q => (q.ID, q.Spec.pushDownRule.isSome))

/-- `plan.LogicalPlanSpec` (the fields the physical pass reads). -/
structure LogicalPlanSpec where
  Procedures : List (ProcedureID × Procedure)
  Order : List ProcedureID

/-- `planner.pushDownAndSearch`, unrolled over the parent list of the
procedure being pushed down; `s` is the push-down spec whose `PushDown`
method is the `do` callback.  Fuel bounds the walk (the source recurses
without a guard). -/
def pushDownAndSearch (s : ProcedureSpec) (rule : PushDownRule) :
    Nat → PlannerState → List ProcedureID → Option PlannerState
  | 0, _, _ => none
  | _ + 1, st, [] => some st
  | fuel + 1, st, parent :: rest =>
    match planLookup st parent with
    | none => none
    | some pp =>
      let step : Option PlannerState :=
        if pp.Spec.Kind = rule.Root then
          (s.PushDown pp).map (fun pp2 => heapUpdate st parent pp2)
        else if hasKind pp.Spec.Kind rule.Through then
          pushDownAndSearch s rule fuel st pp.Parents
        else
          some st
      match step with
      | none => none
      | some st2 => pushDownAndSearch s rule fuel st2 rest

/-- First loop of `planner.removeProcedure`: for each parent id, replace
the removed procedure in that parent's `Children` by the removed
procedure's children. -/
def spliceParentsFold (pr : Procedure) : PlannerState → List ProcedureID → Option PlannerState
  | st, [] => some st
  | st, id :: rest =>
    match planLookup st id with
    | none => none
    | some parent =>
      spliceParentsFold pr
        (heapUpdate st id
          { parent with Children := removeID parent.Children pr.ID ++ pr.Children }) rest

/-- Second loop of `planner.removeProcedure`: for each child id, replace
the removed procedure in that child's `Parents` by the removed
procedure's parents. -/
def spliceChildrenFold (pr : Procedure) : PlannerState → List ProcedureID → Option PlannerState
  | st, [] => some st
  | st, id :: rest =>
    match planLookup st id with
    | none => none
    | some child =>
      spliceChildrenFold pr
        (heapUpdate st id
          { child with Parents := removeID child.Parents pr.ID ++ pr.Parents }) rest

/-- `planner.removeProcedure`: delete the procedure from the plan map and
order, then splice every parent's child list and every child's parent
list. -/
def removeProcedure (st : PlannerState) (pr : Procedure) : Option PlannerState :=
  (spliceParentsFold pr
      { st with members := deleteKey st.members pr.ID, order := removeID st.order pr.ID }
      pr.Parents).bind
    (fun st2 => spliceChildrenFold pr st2 pr.Children)

/-- First `ap.Do` loop of `planner.Plan`: register every logical procedure
in the physical plan's map and order. -/
def populate : PlannerState → List ProcedureID → Option PlannerState
  | st, [] => some st
  | st, id :: rest =>
    match lookupProc st.heap id with
    | none => none
    | some pr =>
      populate { st with members := insertKey st.members pr.ID, order := st.order ++ [pr.ID] } rest

/-- Body of the second `ap.Do` loop of `planner.Plan` for one procedure:
if its spec implements `PushDownProcedureSpec`, push down along every
parent chain and then remove it unconditionally.  (No spec of the provided
sources implements `BoundedProcedureSpec`, so that branch is a no-op.) -/
def planStep (fuel : Nat) (st : PlannerState) (id : ProcedureID) : Option PlannerState :=
  match lookupProc st.heap id with
  | none => none
  | some pr =>
    match pr.Spec.pushDownRule with
    | some rule =>
      (pushDownAndSearch pr.Spec rule fuel st pr.Parents).bind
        (fun st1 =>
          match lookupProc st1.heap id with
          | none => none
          | some pr1 => removeProcedure st1 pr1)
    | none => some st

/-- Second `ap.Do` loop of `planner.Plan`, over the logical order. -/
def pushDownPass (fuel : Nat) : PlannerState → List ProcedureID → Option PlannerState
  | st, [] => some st
  | st, id :: rest => (planStep fuel st id).bind (fun st2 => pushDownPass fuel st2 rest)

/-- Final `p.plan.Do` loop of `planner.Plan`: procedures without children
become the results. -/
def computeResults : PlannerState → List ProcedureID → Option PlannerState
  | st, [] => some st
  | st, id :: rest =>
    match planLookup st id with
    | none => none
    | some pr =>
      computeResults
        (if pr.Children.isEmpty then { st with results := st.results ++ [pr.ID] } else st) rest

/-- `planner.Plan` (the `now`/bounds bookkeeping is a no-op for the
provided specs and is omitted). -/
def planner.Plan (fuel : Nat) (lp : LogicalPlanSpec) : Option PlannerState :=
  (populate ⟨lp.Procedures, [], [], []⟩ lp.Order).bind
    (fun st1 => (pushDownPass fuel st1 lp.Order).bind
      (fun st2 => computeResults st2 st2.order))

end plan

namespace execute

/-- Modelled from the spec: `execute.Time` is a 64-bit nanosecond tick;
modelled as an unbounded integer since its defining file is not under the
provided sources. -/
abbrev Time := Int

/-- Modelled from the spec: `execute.Duration` is signed nanoseconds. -/
abbrev Duration := Int

/-- Modelled from the spec: `execute.Window{Every, Period}`. -/
structure Window where
  Every : Duration
  Period : Duration
deriving DecidableEq

/-- Modelled from the spec: `execute.Bounds{Start, Stop}`, half-open. -/
structure Bounds where
  Start : Time
  Stop : Time
deriving DecidableEq

/-- Modelled from the spec: `execute.ReadSpec`; the storage source only
passes it through to the reader, so only the database field is kept. -/
structure ReadSpec where
  Database : String
deriving DecidableEq

/-- A `StorageReader` capability: `Read(readSpec, start, stop)` returns a
block iterator or an error.  The opaque Go `error` is modelled by a
numeric code, a block iterator by the list of blocks `Do` would yield. -/
def StorageReader (β : Type) := ReadSpec → Time → Time → Except Nat (List β)

/-- `execute.storageSource`.  Downstream transformations are identified by
their position-like ids in `ts`; blocks are opaque (`β`). -/
structure storageSource (β : Type) where
  id : Nat
  reader : StorageReader β
  readSpec : ReadSpec
  window : Window
  bounds : Bounds
  ts : List Nat
  currentTime : Time

/-- `storageSource.Next`: returns `(blocks, watermark, ok)` and the
mutated source.  A read error is logged and reported as `ok = false`
exactly like window exhaustion. -/
def storageSource.Next {β : Type} (s : storageSource β) :
    (Option (List β) × Time × Bool) × storageSource β :=
  let start : Time := s.currentTime - s.window.Period
  let stop : Time := s.currentTime
  let s2 : storageSource β := { s with currentTime := s.currentTime + s.window.Every }
  if stop > s.bounds.Stop then ((none, 0, false), s2)
  else
    match s.reader s.readSpec start stop with
    | Except.error _ => ((none, 0, false), s2)
    | Except.ok bi => ((some bi, stop, true), s2)

/-- One call the storage source makes on a downstream transformation: the
observable interaction of `storageSource.Run` with the rest of the query
(the `log.Println` in `Next` writes to the process log, not to any
transformation). -/
inductive SrcEvent (β : Type) where
  | process (t : Nat) (b : β)
  | updateProcessingTime (t : Nat)
  | updateWatermark (t : Nat) (mark : Time)
  | finish (t : Nat)
deriving DecidableEq

/-- Calls issued for one drained block: for each downstream
transformation, `Process` then `UpdateProcessingTime`. -/
def blockEvents {β : Type} (ts : List Nat) (b : β) : List (SrcEvent β) :=
  ts.flatMap (fun t => [SrcEvent.process t b, SrcEvent.updateProcessingTime t])

/-- `storageSource.Run` as the list of calls it makes downstream, bounded
by fuel (the loop itself has no bound; an exhausted fuel yields a
truncated trace without the final `Finish` calls). -/
def storageSource.RunTrace {β : Type} : Nat → storageSource β → List (SrcEvent β)
  | 0, _ => []
  | fuel + 1, s =>
    match storageSource.Next s with
    | ((blocks, mark, true), s2) =>
      (blocks.getD []).flatMap (blockEvents s.ts)
        ++ s.ts.map (fun t => SrcEvent.updateWatermark t mark)
        ++ storageSource.RunTrace fuel s2
    | ((_, _, false), _) => s.ts.map SrcEvent.finish

/-- The watermark values delivered to transformation `t`, in order. -/
def watermarksFor {β : Type} (t : Nat) (evs : List (SrcEvent β)) : List Time :=
  evs.filterMap (fun e =>
    match e with
    | SrcEvent.updateWatermark t2 mark => if t2 = t then some mark else none
    | _ => none)

end execute

namespace functions

/-- `functions.StddevAgg`; the three `float64` fields are modelled as
exact rationals. -/
structure StddevAgg where
  n : ℚ
  m2 : ℚ
  mean : ℚ
deriving DecidableEq

/-- The loop body of `StddevAgg.Do` for one value (Welford's update). -/
def StddevAgg.DoOne (a : StddevAgg) (v : ℚ) : StddevAgg :=
  let n : ℚ := a.n + 1
  let delta : ℚ := v - a.mean
  let mean : ℚ := a.mean + delta / n
  let delta2 : ℚ := v - mean
  { n := n, mean := mean, m2 := a.m2 + delta * delta2 }

/-- `StddevAgg.Do`: feed a vector of values. -/
def StddevAgg.Do (a : StddevAgg) (vs : List ℚ) : StddevAgg :=
  vs.foldl StddevAgg.DoOne a

/-- The zero value `new(StddevAgg)` starts from. -/
def stddevNew : StddevAgg := ⟨0, 0, 0⟩

/-- `StddevAgg.Value`: `math.NaN()` for fewer than two values is modelled
as `none`, `math.Sqrt` by `Real.sqrt` on exact values. -/
noncomputable def StddevAgg.Value (a : StddevAgg) : Option ℝ :=
  if a.n < 2 then none else some (Real.sqrt ((a.m2 : ℝ) / ((a.n : ℝ) - 1)))

/-- `StddevAgg.Reset`. -/
def StddevAgg.Reset (a : StddevAgg) : StddevAgg :=
  { a with n := 0, mean := 0, m2 := 0 }

/-- Independent mathematical specification: the mean of a list. -/
def sampleMean (xs : List ℚ) : ℚ := xs.sum / xs.length

/-- Independent mathematical specification: the sum of squared deviations
from the mean. -/
def sumSqDev (xs : List ℚ) : ℚ :=
  (xs.map (fun x => (x - sampleMean xs) ^ 2)).sum

end functions

namespace examples

/-- Kind of an aggregate procedure used in concrete plans; `sum` is
neither the push-down root nor in any `Through` set. -/
def SumKind : plan.ProcedureKind := "sum"

/-- Placeholder database name for concrete inputs. -/
def exDb : String := "db"

/-- A concrete absolute time value. -/
def exQT (r : Int) : plan.QueryTime := ⟨true, r, 0⟩

/-- A fresh select spec with nothing pushed into it yet. -/
def exSelectSpec : functions.SelectProcedureSpec :=
  ⟨exDb, false, ⟨exQT 0, exQT 0⟩, false, 0⟩

/-- Concrete plan for claim C1: `select0 → sum1 → where2`; the `where`
procedure's parent chain reaches the aggregate `sum1`, which is neither
the rule's root nor in its `Through` set. -/
def exSelect0 : plan.Procedure := ⟨0, .select exSelectSpec, [], [1]⟩

/-- The aggregate between the select and the where. -/
def exSum1 : plan.Procedure := ⟨1, .other SumKind, [0], [2]⟩

/-- The `where` procedure that cannot be pushed down. -/
def exWhere2 : plan.Procedure := ⟨2, .whereSpec ⟨⟨7⟩⟩, [1], []⟩

/-- The logical plan of the C1 scenario. -/
def exC1lp : plan.LogicalPlanSpec :=
  ⟨[(0, exSelect0), (1, exSum1), (2, exWhere2)], [0, 1, 2]⟩

/-- Physical planning of the C1 scenario. -/
def exC1plan : Option plan.PlannerState := plan.planner.Plan 9 exC1lp

/-- Diamond graph for claim C3: `P0` has children `[X1, C3]`, `X1` has
child `C3`, `C3` has parents `[X1, P0]`. -/
def exP0 : plan.Procedure := ⟨0, .other SumKind, [], [1, 3]⟩

/-- The middle procedure that gets removed. -/
def exX1 : plan.Procedure := ⟨1, .other SumKind, [0], [3]⟩

/-- The bottom of the diamond. -/
def exC3bot : plan.Procedure := ⟨3, .other SumKind, [1, 0], []⟩

/-- Planner state of the C3 scenario. -/
def exC3st : plan.PlannerState :=
  ⟨[(0, exP0), (1, exX1), (3, exC3bot)], [0, 1, 3], [0, 1, 3], []⟩

/-- Removing `X1` from the diamond. -/
def exC3res : Option plan.PlannerState := plan.removeProcedure exC3st exX1

/-- First concrete range bounds for claim C4. -/
def exBoundsA : plan.BoundsSpec := ⟨exQT (-7200), exQT (-3600)⟩

/-- Second, different concrete range bounds for claim C4. -/
def exBoundsB : plan.BoundsSpec := ⟨exQT (-3600), exQT 0⟩

/-- A select root procedure for claim C4. -/
def exRoot : plan.Procedure := ⟨0, .select exSelectSpec, [], []⟩

/-- Read spec for concrete storage sources. -/
def exReadSpec : execute.ReadSpec := ⟨exDb⟩

/-- A storage source whose reader fails on every read, well inside its
bounds. -/
def exErrSource : execute.storageSource Nat :=
  ⟨0, fun _ _ _ => Except.error 7, exReadSpec, ⟨1, 1⟩, ⟨0, 10⟩, [0], 0⟩

/-- A storage source with no windows at all (bounds already exhausted)
whose reader would succeed. -/
def exEmptySource : execute.storageSource Nat :=
  ⟨0, fun _ _ _ => Except.ok [], exReadSpec, ⟨1, 1⟩, ⟨0, -1⟩, [0], 0⟩

/-- A healthy storage source yielding three windows of one block each. -/
def exOkSource : execute.storageSource Nat :=
  ⟨0, fun _ _ _ => Except.ok [5], exReadSpec, ⟨1, 1⟩, ⟨0, 2⟩, [0], 0⟩

end examples

/-! ## List helper lemmas -/

namespace plan

theorem lookupProc_mem {l : List (ProcedureID × Procedure)} {id : ProcedureID}
    {pr : Procedure} (h : lookupProc l id = some pr) : (id, pr) ∈ l := by
  induction l with
  | nil => simp [lookupProc] at h
  | cons e rest ih =>
    obtain ⟨k, v⟩ := e
    by_cases he : k = id
    · subst he
      simp [lookupProc] at h
      subst h
      exact List.mem_cons_self _ _
    · simp [lookupProc, he] at h
      exact List.mem_cons_of_mem _ (ih h)

theorem lookupProc_update_self (l : List (ProcedureID × Procedure)) (k : ProcedureID)
    (q : Procedure) :
    lookupProc (updateProc l k q) k = (lookupProc l k).map (fun _ => q) := by
  induction l with
  | nil => simp [lookupProc, updateProc]
  | cons e rest ih =>
    by_cases he : e.1 = k
    · simp [lookupProc, updateProc, he]
    · simp [lookupProc, updateProc, he, ih]

theorem lookupProc_update_ne (l : List (ProcedureID × Procedure)) {k k2 : ProcedureID}
    (q : Procedure) (h : k2 ≠ k) :
    lookupProc (updateProc l k q) k2 = lookupProc l k2 := by
  induction l with
  | nil => simp [lookupProc, updateProc]
  | cons e rest ih =>
    by_cases he : e.1 = k
    · simp [lookupProc, updateProc, he, ih, h, Ne.symm h]
    · by_cases he2 : e.1 = k2 <;> simp [lookupProc, updateProc, he, he2, ih, h]

theorem removeID_eq (l : List ProcedureID) (x : ProcedureID) :
    removeID l x = if x ∈ l then l.erase x else [] := by
  by_cases hx : x ∈ l <;> simp [removeID, hx]

theorem mem_removeID {l : List ProcedureID} {x a : ProcedureID}
    (h : a ∈ removeID l x) : a ∈ l := by
  rw [removeID_eq] at h
  by_cases hx : x ∈ l
  · rw [if_pos hx] at h
    exact List.mem_of_mem_erase h
  · simp [hx] at h

theorem not_mem_removeID_self {l : List ProcedureID} {x : ProcedureID}
    (h : l.Nodup) : x ∉ removeID l x := by
  rw [removeID_eq]
  by_cases hx : x ∈ l
  · rw [if_pos hx]
    intro hmem
    exact ((h.mem_erase_iff).mp hmem).1 rfl
  · simp [hx]

theorem removeID_nodup {l : List ProcedureID} {x : ProcedureID}
    (h : l.Nodup) : (removeID l x).Nodup := by
  rw [removeID_eq]
  by_cases hx : x ∈ l
  · rw [if_pos hx]; exact h.erase x
  · simp [hx]

theorem insertKey_nodup {l : List ProcedureID} {id : ProcedureID}
    (h : l.Nodup) : (insertKey l id).Nodup := by
  by_cases hm : id ∈ l
  · simp [insertKey, hm, h]
  · simp [insertKey, hm, List.nodup_append, h]

end plan

/-! ## Stddev aggregator: Welford invariant -/

namespace functions

theorem sumsq_shift (xs : List ℚ) (c : ℚ) :
    (xs.map (fun x => (x - c) ^ 2)).sum =
      (xs.map (fun x => x ^ 2)).sum - 2 * c * xs.sum + (xs.length : ℚ) * c ^ 2 := by
  induction xs with
  | nil => simp
  | cons y ys ih =>
    simp only [List.map_cons, List.sum_cons, ih, List.length_cons]
    push_cast
    ring

theorem do_append_one (a : StddevAgg) (ys : List ℚ) (v : ℚ) :
    StddevAgg.Do a (ys ++ [v]) = StddevAgg.DoOne (StddevAgg.Do a ys) v := by
  simp [StddevAgg.Do, List.foldl_append]

theorem stddev_welford (xs : List ℚ) :
    (StddevAgg.Do stddevNew xs).n = xs.length ∧
    (StddevAgg.Do stddevNew xs).mean = sampleMean xs ∧
    (StddevAgg.Do stddevNew xs).m2 = sumSqDev xs := by
  induction xs using List.reverseRecOn with
  | nil => simp [StddevAgg.Do, stddevNew, sampleMean, sumSqDev]
  | append_singleton ys v ih =>
    obtain ⟨hn, hmean, hm2⟩ := ih
    rw [do_append_one]
    rcases eq_or_ne ys [] with rfl | hne
    · refine ⟨by simp [StddevAgg.Do, StddevAgg.DoOne, stddevNew], ?_, ?_⟩
      · simp [StddevAgg.Do, StddevAgg.DoOne, stddevNew, sampleMean]
      · simp [StddevAgg.Do, StddevAgg.DoOne, stddevNew, sumSqDev, sampleMean]
    · have hL : ((ys.length : ℚ)) ≠ 0 := by
        simpa [List.length_eq_zero] using hne
      have hL1 : ((ys.length : ℚ)) + 1 ≠ 0 := by positivity
      refine ⟨?_, ?_, ?_⟩
      · simp only [StddevAgg.DoOne, hn, List.length_append, List.length_cons, List.length_nil]
        push_cast
        ring
      · simp only [StddevAgg.DoOne, hn, hmean, sampleMean, List.sum_append, List.length_append,
          List.sum_cons, List.sum_nil, List.length_cons, List.length_nil]
        push_cast
        field_simp
        ring
      · simp only [StddevAgg.DoOne, hn, hmean, hm2, sumSqDev, sampleMean, List.map_append,
          List.sum_append, List.length_append, List.sum_cons, List.sum_nil, List.length_cons,
          List.length_nil, List.map_cons, List.map_nil]
        rw [sumsq_shift, sumsq_shift]
        push_cast
        field_simp
        ring

end functions

/-! ## Claim theorems: stddev aggregator -/

/-- Claim C7: the stddev aggregator implements Welford's online algorithm
over exact arithmetic: after feeding any sequence through `Do`, `Value`
is NaN (modelled `none`) exactly when fewer than two values were
accumulated, and otherwise equals `sqrt(m2 / (n - 1))` where `m2` is the
sum of squared deviations from the running mean and `n` the count; over
`{1, 2, 3, 4}` the value is `sqrt(5/3)`, which lies in
`(1.2909944, 1.2909945)`. -/
theorem C7_theorem :
    ∀ xs : List ℚ,
      ((functions.StddevAgg.Do functions.stddevNew xs).Value = none ↔ xs.length < 2) ∧
      (2 ≤ xs.length →
        (functions.StddevAgg.Do functions.stddevNew xs).Value =
          some (Real.sqrt ((functions.sumSqDev xs : ℝ) / ((xs.length : ℝ) - 1)))) ∧
      (functions.StddevAgg.Do functions.stddevNew [1, 2, 3, 4]).Value =
        some (Real.sqrt ((5 : ℝ) / 3)) ∧
      (1.2909944 : ℝ) < Real.sqrt ((5 : ℝ) / 3) ∧
      Real.sqrt ((5 : ℝ) / 3) < (1.2909945 : ℝ) := by
  have key : ∀ xs : List ℚ,
      ((functions.StddevAgg.Do functions.stddevNew xs).Value = none ↔ xs.length < 2) ∧
      (2 ≤ xs.length →
        (functions.StddevAgg.Do functions.stddevNew xs).Value =
          some (Real.sqrt ((functions.sumSqDev xs : ℝ) / ((xs.length : ℝ) - 1)))) := by
    intro xs
    obtain ⟨hn, _, hm2⟩ := functions.stddev_welford xs
    have hcast : ((functions.StddevAgg.Do functions.stddevNew xs).n < 2) ↔ xs.length < 2 := by
      rw [hn]
      exact_mod_cast Iff.rfl
    constructor
    · rcases lt_or_ge xs.length 2 with hlt | hge
      · simp [functions.StddevAgg.Value, hcast.mpr hlt, hlt]
      · have hnlt : ¬ ((functions.StddevAgg.Do functions.stddevNew xs).n < 2) := by
          rw [hcast]
          omega
        simp only [functions.StddevAgg.Value, if_neg hnlt]
        simp
        omega
    · intro hge
      have hnlt : ¬ ((functions.StddevAgg.Do functions.stddevNew xs).n < 2) := by
        rw [hcast]
        omega
      simp only [functions.StddevAgg.Value]
      rw [if_neg hnlt, hm2, hn]
      push_cast
      rfl
  intro xs
  refine ⟨(key xs).1, (key xs).2, ?_, ?_, ?_⟩
  · have h4 := (key [1, 2, 3, 4]).2 (by decide)
    have hsum : functions.sumSqDev [1, 2, 3, 4] = 5 := by
      simp [functions.sumSqDev, functions.sampleMean]
      norm_num
    rw [h4, hsum]
    norm_num
  · rw [Real.lt_sqrt (by norm_num)]
    norm_num
  · rw [Real.sqrt_lt' (by norm_num)]
    norm_num

/-- Claim C7, witness: the general clause instantiated at the four-element
input, with the length hypothesis discharged concretely. -/
theorem C7_witness :
    (functions.StddevAgg.Do functions.stddevNew [1, 2, 3, 4]).Value =
      some (Real.sqrt ((functions.sumSqDev [1, 2, 3, 4] : ℝ) /
        (((4 : Nat) : ℝ) - 1))) := by
  have h := (C7_theorem [1, 2, 3, 4]).2.1 (by decide)
  simpa using h

/-- Claim C10: `Reset` restores the zero state of a fresh aggregator, so a
window fed after a `Reset` produces exactly the value a fresh aggregator
would produce. -/
theorem C10_theorem :
    ∀ (a : functions.StddevAgg) (xs ys : List ℚ),
      a.Reset = functions.stddevNew ∧
      (functions.StddevAgg.Do (functions.StddevAgg.Do functions.stddevNew xs).Reset ys).Value =
        (functions.StddevAgg.Do functions.stddevNew ys).Value := by
  intro a xs ys
  exact ⟨rfl, rfl⟩

/-! ## Claim theorems: pushdown overwrite (C4) -/

/-- Claim C4, counterexample: pushing two different ranges (and two
different wheres) into the same select root overwrites, and the final
procedure is identical to one that only ever received the second
pushdown — no component of the planner state records the ambiguity. -/
theorem C4_counterexample :
    examples.exBoundsA ≠ examples.exBoundsB ∧
    (plan.ProcedureSpec.PushDown (.range ⟨examples.exBoundsA⟩) examples.exRoot).bind
        (plan.ProcedureSpec.PushDown (.range ⟨examples.exBoundsB⟩)) =
      plan.ProcedureSpec.PushDown (.range ⟨examples.exBoundsB⟩) examples.exRoot ∧
    (plan.ProcedureSpec.PushDown (.whereSpec ⟨⟨11⟩⟩) examples.exRoot).bind
        (plan.ProcedureSpec.PushDown (.whereSpec ⟨⟨12⟩⟩)) =
      plan.ProcedureSpec.PushDown (.whereSpec ⟨⟨12⟩⟩) examples.exRoot := by
  refine ⟨by decide, by decide, by decide⟩

/-- Claim C4, amended: when a second pushdown targets a select root whose
`BoundsSet` (resp. `WhereSet`) bit is already set, the planner silently
overwrites the previous value with the later one; nothing records the
ambiguity — the result equals a single pushdown of the later value onto
the untouched root. -/
theorem C4_theorem :
    ∀ (root : plan.Procedure) (ss : functions.SelectProcedureSpec)
      (r1 r2 : functions.RangeProcedureSpec) (w1 w2 : functions.WhereProcedureSpec),
      root.Spec = plan.ProcedureSpec.select ss →
      ((plan.ProcedureSpec.PushDown (.range r1) root).bind
          (plan.ProcedureSpec.PushDown (.range r2)) =
        plan.ProcedureSpec.PushDown (.range r2) root) ∧
      ((plan.ProcedureSpec.PushDown (.range r2) root).map plan.Procedure.Spec =
        some (.select { ss with BoundsSet := true, Bounds := r2.Bounds })) ∧
      ((plan.ProcedureSpec.PushDown (.whereSpec w1) root).bind
          (plan.ProcedureSpec.PushDown (.whereSpec w2)) =
        plan.ProcedureSpec.PushDown (.whereSpec w2) root) ∧
      ((plan.ProcedureSpec.PushDown (.whereSpec w2) root).map plan.Procedure.Spec =
        some (.select { ss with WhereSet := true, Where := w2.Exp.Predicate })) := by
  intro root ss r1 r2 w1 w2 hroot
  obtain ⟨rid, rspec, rp, rc⟩ := root
  simp only [plan.Procedure.mk.injEq] at hroot ⊢
  subst hroot
  refine ⟨rfl, rfl, rfl, rfl⟩

/-- Claim C4, witness: the amended statement applied to a concrete select
root and two concrete conflicting ranges and wheres. -/
theorem C4_witness :
    (plan.ProcedureSpec.PushDown (.range ⟨examples.exBoundsB⟩)
        examples.exRoot).map plan.Procedure.Spec =
      some (.select { examples.exSelectSpec with
        BoundsSet := true, Bounds := examples.exBoundsB }) := by
  exact (C4_theorem examples.exRoot examples.exSelectSpec ⟨examples.exBoundsA⟩
    ⟨examples.exBoundsB⟩ ⟨⟨11⟩⟩ ⟨⟨12⟩⟩ rfl).2.1

/-! ## Storage source lemmas -/

namespace execute

theorem Next_currentTime {β : Type} (s : storageSource β) :
    (storageSource.Next s).2 = { s with currentTime := s.currentTime + s.window.Every } := by
  by_cases hb : s.currentTime > s.bounds.Stop
  · simp [storageSource.Next, hb]
  · cases hr : s.reader s.readSpec (s.currentTime - s.window.Period) s.currentTime <;>
      simp [storageSource.Next, hb, hr]

theorem Next_true_mark {β : Type} (s : storageSource β)
    (h : (storageSource.Next s).1.2.2 = true) :
    (storageSource.Next s).1.2.1 = s.currentTime := by
  by_cases hb : s.currentTime > s.bounds.Stop
  · simp [storageSource.Next, hb] at h
  · cases hr : s.reader s.readSpec (s.currentTime - s.window.Period) s.currentTime with
    | error e => simp [storageSource.Next, hb, hr] at h
    | ok bi => simp [storageSource.Next, hb, hr]

theorem RunTrace_succ_true {β : Type} (fuel : Nat) (s : storageSource β)
    (h : (storageSource.Next s).1.2.2 = true) :
    storageSource.RunTrace (fuel + 1) s =
      ((storageSource.Next s).1.1.getD []).flatMap (blockEvents s.ts)
        ++ s.ts.map (fun t => SrcEvent.updateWatermark t (storageSource.Next s).1.2.1)
        ++ storageSource.RunTrace fuel (storageSource.Next s).2 := by
  rcases hN : storageSource.Next s with ⟨⟨blocks, mark, ok⟩, s2⟩
  rw [hN] at h
  simp only at h
  subst h
  simp only [storageSource.RunTrace, hN, List.append_assoc]

theorem RunTrace_succ_false {β : Type} (fuel : Nat) (s : storageSource β)
    (h : (storageSource.Next s).1.2.2 = false) :
    storageSource.RunTrace (fuel + 1) s = s.ts.map SrcEvent.finish := by
  rcases hN : storageSource.Next s with ⟨⟨blocks, mark, ok⟩, s2⟩
  rw [hN] at h
  simp only at h
  subst h
  simp only [storageSource.RunTrace, hN]

theorem watermarksFor_append {β : Type} (t : Nat) (l1 l2 : List (SrcEvent β)) :
    watermarksFor t (l1 ++ l2) = watermarksFor t l1 ++ watermarksFor t l2 := by
  simp [watermarksFor]

theorem watermarksFor_blockEvents {β : Type} (t : Nat) (ts : List Nat) (bs : List β) :
    watermarksFor t (bs.flatMap (blockEvents ts)) = [] := by
  unfold watermarksFor
  rw [List.filterMap_eq_nil_iff]
  intro e he
  rw [List.mem_flatMap] at he
  obtain ⟨b, _, hb⟩ := he
  unfold blockEvents at hb
  rw [List.mem_flatMap] at hb
  obtain ⟨t2, _, ht2⟩ := hb
  simp only [List.mem_cons, List.not_mem_nil, or_false] at ht2
  rcases ht2 with rfl | rfl
  · rfl
  · rfl

theorem watermarksFor_marks {β : Type} (t : Nat) (ts : List Nat) (mark : Time) :
    watermarksFor t (ts.map (fun t2 => (SrcEvent.updateWatermark t2 mark : SrcEvent β))) =
      List.replicate (ts.count t) mark := by
  induction ts with
  | nil => simp [watermarksFor]
  | cons a rest ih =>
    by_cases ha : a = t <;>
      simp [watermarksFor, List.count_cons, ha, List.replicate_succ] <;>
      simpa [watermarksFor] using ih

theorem watermarksFor_finish {β : Type} (t : Nat) (ts : List Nat) :
    watermarksFor t (ts.map (SrcEvent.finish : Nat → SrcEvent β)) = [] := by
  unfold watermarksFor
  rw [List.filterMap_eq_nil_iff]
  intro e he
  rw [List.mem_map] at he
  obtain ⟨t2, _, rfl⟩ := he
  rfl

theorem eq_of_mem_getLast?_replicate {n : Nat} {a x : Time}
    (h : x ∈ (List.replicate n a).getLast?) : x = a := by
  obtain ⟨hne, rfl⟩ := List.mem_getLast?_eq_getLast h
  exact List.eq_of_mem_replicate (List.getLast_mem hne)

theorem chain_replicate_le (n : Nat) (a : Time) :
    List.Chain' (fun x y => x ≤ y) (List.replicate n a) := by
  induction n with
  | zero => simp
  | succ n ih =>
    rw [List.replicate_succ]
    cases n with
    | zero => simp
    | succ m =>
      rw [List.replicate_succ]
      exact List.Chain'.cons le_rfl (by rw [← List.replicate_succ]; exact ih)

theorem runTrace_marks_ge {β : Type} :
    ∀ (fuel : Nat) (s : storageSource β) (t : Nat),
      0 ≤ s.window.Every →
      ∀ m ∈ watermarksFor t (storageSource.RunTrace fuel s), s.currentTime ≤ m := by
  intro fuel
  induction fuel with
  | zero =>
    intro s t _ m hm
    simp [storageSource.RunTrace, watermarksFor] at hm
  | succ fuel ih =>
    intro s t hev m hm
    by_cases hok : (storageSource.Next s).1.2.2 = true
    · rw [RunTrace_succ_true fuel s hok, watermarksFor_append, watermarksFor_append] at hm
      simp only [List.append_assoc, List.mem_append] at hm
      rcases hm with hm | hm | hm
      · rw [watermarksFor_blockEvents] at hm
        simp at hm
      · rw [watermarksFor_marks] at hm
        have heq := List.eq_of_mem_replicate hm
        subst heq
        rw [Next_true_mark s hok]
      · have hev2 : 0 ≤ (storageSource.Next s).2.window.Every := by
          rw [Next_currentTime]
          exact hev
        have h2 := ih (storageSource.Next s).2 t hev2 m hm
        have hct : (storageSource.Next s).2.currentTime = s.currentTime + s.window.Every := by
          rw [Next_currentTime]
        rw [hct] at h2
        linarith
    · have hok2 : (storageSource.Next s).1.2.2 = false := by
        simpa using hok
      rw [RunTrace_succ_false fuel s hok2, watermarksFor_finish] at hm
      simp at hm

theorem runTrace_chain {β : Type} :
    ∀ (fuel : Nat) (s : storageSource β) (t : Nat),
      0 ≤ s.window.Every →
      List.Chain' (fun a b => a ≤ b) (watermarksFor t (storageSource.RunTrace fuel s)) := by
  intro fuel
  induction fuel with
  | zero =>
    intro s t _
    simp [storageSource.RunTrace, watermarksFor]
  | succ fuel ih =>
    intro s t hev
    by_cases hok : (storageSource.Next s).1.2.2 = true
    · rw [RunTrace_succ_true fuel s hok, watermarksFor_append, watermarksFor_append,
        watermarksFor_blockEvents, watermarksFor_marks, Next_true_mark s hok]
      rw [List.nil_append, List.chain'_append]
      have hev2 : 0 ≤ (storageSource.Next s).2.window.Every := by
        rw [Next_currentTime]
        exact hev
      refine ⟨chain_replicate_le _ _, ih _ t hev2, ?_⟩
      intro x hx y hy
      have hx2 := eq_of_mem_getLast?_replicate hx
      subst hx2
      have hymem : y ∈ watermarksFor t (storageSource.RunTrace fuel (storageSource.Next s).2) := by
        exact List.mem_of_mem_head? hy
      have hge := runTrace_marks_ge fuel (storageSource.Next s).2 t hev2 y hymem
      have hct : (storageSource.Next s).2.currentTime = s.currentTime + s.window.Every := by
        rw [Next_currentTime]
      rw [hct] at hge
      linarith
    · have hok2 : (storageSource.Next s).1.2.2 = false := by
        simpa using hok
      rw [RunTrace_succ_false fuel s hok2, watermarksFor_finish]
      simp

theorem runTrace_marks_stops {β : Type} :
    ∀ (fuel : Nat) (s : storageSource β) (t : Nat),
      ∀ m ∈ watermarksFor t (storageSource.RunTrace fuel s),
        ∃ k : Nat, m = s.currentTime + k * s.window.Every := by
  intro fuel
  induction fuel with
  | zero =>
    intro s t m hm
    simp [storageSource.RunTrace, watermarksFor] at hm
  | succ fuel ih =>
    intro s t m hm
    by_cases hok : (storageSource.Next s).1.2.2 = true
    · rw [RunTrace_succ_true fuel s hok, watermarksFor_append, watermarksFor_append] at hm
      simp only [List.append_assoc, List.mem_append] at hm
      rcases hm with hm | hm | hm
      · rw [watermarksFor_blockEvents] at hm
        simp at hm
      · rw [watermarksFor_marks] at hm
        have heq := List.eq_of_mem_replicate hm
        subst heq
        refine ⟨0, ?_⟩
        rw [Next_true_mark s hok]
        ring
      · obtain ⟨k, hk⟩ := ih (storageSource.Next s).2 t m hm
        refine ⟨k + 1, ?_⟩
        have hct : (storageSource.Next s).2.currentTime = s.currentTime + s.window.Every := by
          rw [Next_currentTime]
        have hw : (storageSource.Next s).2.window = s.window := by
          rw [Next_currentTime]
        rw [hct, hw] at hk
        rw [hk]
        push_cast
        ring
    · have hok2 : (storageSource.Next s).1.2.2 = false := by
        simpa using hok
      rw [RunTrace_succ_false fuel s hok2, watermarksFor_finish] at hm
      simp at hm

end execute

/-! ## Claim theorems: storage source (C5, C2, C6) -/

/-- Claim C5, counterexample: when the storage reader returns an error,
`Next` reports no further windows even though the window's stop does not
exceed `bounds.Stop`, so "no further windows exactly when stop exceeds
bounds.Stop" fails. -/
theorem C5_counterexample :
    (execute.storageSource.Next examples.exErrSource).1.2.2 = false ∧
    ¬ (examples.exErrSource.bounds.Stop < examples.exErrSource.currentTime) := by
  refine ⟨by decide, by decide⟩

/-- Claim C5, amended: `Next` advances `currentTime` by `Every`; a
successful call yields the reader's blocks for the half-open window
`[currentTime - Period, currentTime)` with watermark equal to the
pre-call `currentTime`; it reports no further windows exactly when that
stop exceeds `bounds.Stop` or the storage read returns an error. -/
theorem C5_theorem :
    ∀ (β : Type) (s : execute.storageSource β),
      (execute.storageSource.Next s).2.currentTime = s.currentTime + s.window.Every ∧
      ((execute.storageSource.Next s).1.2.2 = false ↔
        (s.bounds.Stop < s.currentTime ∨
          ∃ e, s.reader s.readSpec (s.currentTime - s.window.Period) s.currentTime =
            Except.error e)) ∧
      (∀ bi, s.reader s.readSpec (s.currentTime - s.window.Period) s.currentTime =
          Except.ok bi →
        s.currentTime ≤ s.bounds.Stop →
        (execute.storageSource.Next s).1 = (some bi, s.currentTime, true)) := by
  intro β s
  refine ⟨?_, ?_, ?_⟩
  · rw [execute.Next_currentTime]
  · by_cases hb : s.currentTime > s.bounds.Stop
    · simp only [execute.storageSource.Next, if_pos hb]
      simpa using Or.inl hb
    · cases hr : s.reader s.readSpec (s.currentTime - s.window.Period) s.currentTime with
      | error e =>
        simp only [execute.storageSource.Next, if_neg hb, hr]
        constructor
        · intro _
          exact Or.inr ⟨e, rfl⟩
        · intro _
          trivial
      | ok bi =>
        simp only [execute.storageSource.Next, if_neg hb, hr]
        constructor
        · intro hfalse
          cases hfalse
        · rintro (h | ⟨e, he⟩)
          · exact absurd h hb
          · cases he
  · intro bi hr hle
    have hgt : ¬ (s.currentTime > s.bounds.Stop) := not_lt.mpr hle
    simp [execute.storageSource.Next, hgt, hr]

/-- Claim C5, witness: the success clause applied to a concrete healthy
source. -/
theorem C5_witness :
    (execute.storageSource.Next examples.exOkSource).1 =
      (some [5], examples.exOkSource.currentTime, true) := by
  exact (C5_theorem Nat examples.exOkSource).2.2 [5] rfl (by decide)

/-- Claim C2, counterexample: with a reader that fails inside the bounds,
the entire downstream interaction of `Run` is a single `Finish` call —
identical to that of a healthy source with no windows at all; the read
error reaches no downstream transformation. -/
theorem C2_counterexample :
    examples.exErrSource.reader examples.exReadSpec (0 - 1) 0 = Except.error 7 ∧
    examples.exErrSource.currentTime ≤ examples.exErrSource.bounds.Stop ∧
    execute.storageSource.RunTrace 20 examples.exErrSource =
      [execute.SrcEvent.finish 0] ∧
    execute.storageSource.RunTrace 20 examples.exEmptySource =
      [execute.SrcEvent.finish 0] := by
  refine ⟨rfl, by decide, by decide, by decide⟩

/-- Claim C2, amended: when the storage reader's `Read` fails on the
first window, the source stops and its downstream transformations only
receive their `Finish` calls: the error is logged and dropped, and never
propagates downstream. -/
theorem C2_theorem :
    ∀ (β : Type) (fuel : Nat) (s : execute.storageSource β) (e : Nat),
      s.currentTime ≤ s.bounds.Stop →
      s.reader s.readSpec (s.currentTime - s.window.Period) s.currentTime =
        Except.error e →
      execute.storageSource.RunTrace (fuel + 1) s =
        s.ts.map execute.SrcEvent.finish := by
  intro β fuel s e hb hr
  have hgt : ¬ (s.currentTime > s.bounds.Stop) := not_lt.mpr hb
  have hok : (execute.storageSource.Next s).1.2.2 = false := by
    simp [execute.storageSource.Next, hgt, hr]
  exact execute.RunTrace_succ_false fuel s hok

/-- Claim C2, witness: the amended statement applied to the concrete
erroring source. -/
theorem C2_witness :
    execute.storageSource.RunTrace 20 examples.exErrSource =
      examples.exErrSource.ts.map execute.SrcEvent.finish := by
  exact C2_theorem Nat 19 examples.exErrSource 7 (by decide) rfl

/-- Claim C6: for a storage source with non-negative `Every`, the
watermark values delivered to any downstream transformation during `Run`
form a monotonically non-decreasing sequence, and every delivered value
is the stop of a drained window (`currentTime + k * Every` for some
`k`). -/
theorem C6_theorem :
    ∀ (β : Type) (fuel : Nat) (s : execute.storageSource β) (t : Nat),
      0 ≤ s.window.Every →
      List.Chain' (fun a b => a ≤ b)
        (execute.watermarksFor t (execute.storageSource.RunTrace fuel s)) ∧
      (∀ m ∈ execute.watermarksFor t (execute.storageSource.RunTrace fuel s),
        ∃ k : Nat, m = s.currentTime + k * s.window.Every) := by
  intro β fuel s t hev
  exact ⟨execute.runTrace_chain fuel s t hev, execute.runTrace_marks_stops fuel s t⟩

/-- Claim C6, witness: the monotonicity statement applied to a concrete
healthy source that emits three watermarks. -/
theorem C6_witness :
    0 ≤ examples.exOkSource.window.Every ∧
    List.Chain' (fun a b => a ≤ b)
      (execute.watermarksFor 0 (execute.storageSource.RunTrace 20 examples.exOkSource)) :=
  ⟨by decide, (C6_theorem Nat 20 examples.exOkSource 0 (by decide)).1⟩

/-! ## Planner lemmas -/

namespace plan

theorem planLookup_some {st : PlannerState} {id : ProcedureID} {pr : Procedure}
    (h : planLookup st id = some pr) :
    st.members.contains id = true ∧ lookupProc st.heap id = some pr := by
  unfold planLookup at h
  by_cases hc : st.members.contains id
  · rw [if_pos hc] at h
    exact ⟨hc, h⟩
  · rw [if_neg hc] at h
    cases h

theorem PushDown_spec {s : ProcedureSpec} {root root2 : Procedure}
    (h : ProcedureSpec.PushDown s root = some root2) :
    root2.ID = root.ID ∧ root2.Parents = root.Parents ∧ root2.Children = root.Children ∧
    root2.Spec.pushDownRule = none ∧ root.Spec.pushDownRule = none := by
  obtain ⟨rid, rspec, rp, rc⟩ := root
  cases s <;> cases rspec <;>
    simp_all [ProcedureSpec.PushDown, ProcedureSpec.pushDownRule] <;>
    subst h <;> simp [ProcedureSpec.pushDownRule]

theorem pdSig_heapUpdate_of_spec {st : PlannerState} {k : ProcedureID} {pp q : Procedure}
    (hl : lookupProc st.heap k = some pp)
    (hid : q.ID = pp.ID)
    (hpd : q.Spec.pushDownRule.isSome = pp.Spec.pushDownRule.isSome) :
    ∀ k2, pdSig (heapUpdate st k q) k2 = pdSig st k2 := by
  intro k2
  by_cases hk : k2 = k
  · subst hk
    unfold pdSig heapUpdate
    simp only
    rw [lookupProc_update_self, hl]
    simp [hid, hpd]
  · unfold pdSig heapUpdate
    simp only
    rw [lookupProc_update_ne _ _ hk]

theorem pds_preserves (s : ProcedureSpec) (rule : PushDownRule) :
    ∀ (fuel : Nat) (st : PlannerState) (l : List ProcedureID) (st2 : PlannerState),
      pushDownAndSearch s rule fuel st l = some st2 →
      st2.members = st.members ∧ st2.order = st.order ∧ st2.results = st.results ∧
      ∀ k, pdSig st2 k = pdSig st k := by
  intro fuel
  induction fuel with
  | zero =>
    intro st l st2 h
    simp [pushDownAndSearch] at h
  | succ fuel ih =>
    intro st l st2 h
    cases l with
    | nil =>
      simp only [pushDownAndSearch, Option.some_inj] at h
      subst h
      exact ⟨rfl, rfl, rfl, fun k => rfl⟩
    | cons parent rest =>
      simp only [pushDownAndSearch] at h
      cases hlk : planLookup st parent with
      | none =>
        simp [hlk] at h
      | some pp =>
        simp only [hlk] at h
        by_cases hk : pp.Spec.Kind = rule.Root
        · rw [if_pos hk] at h
          cases hpd : ProcedureSpec.PushDown s pp with
          | none =>
            simp [hpd] at h
          | some pp2 =>
            simp only [hpd, Option.map_some'] at h
            obtain ⟨h1, h2, h3, h4⟩ := ih (heapUpdate st parent pp2) rest st2 h
            obtain ⟨hplk1, hplk2⟩ := planLookup_some hlk
            obtain ⟨hid, _, _, hpd2, hpd3⟩ := PushDown_spec hpd
            refine ⟨h1, h2, h3, fun k => ?_⟩
            rw [h4 k]
            exact pdSig_heapUpdate_of_spec hplk2 hid (by rw [hpd2, hpd3]) k
        · rw [if_neg hk] at h
          by_cases hth : hasKind pp.Spec.Kind rule.Through = true
          · rw [if_pos hth] at h
            cases hrec : pushDownAndSearch s rule fuel st pp.Parents with
            | none =>
              simp [hrec] at h
            | some stA =>
              simp only [hrec] at h
              obtain ⟨a1, a2, a3, a4⟩ := ih st pp.Parents stA hrec
              obtain ⟨b1, b2, b3, b4⟩ := ih stA rest st2 h
              exact ⟨b1.trans a1, b2.trans a2, b3.trans a3, fun k => (b4 k).trans (a4 k)⟩
          · rw [if_neg hth] at h
            exact ih st rest st2 h

end plan

namespace plan

theorem spliceParentsFold_preserves (pr : Procedure) :
    ∀ (l : List ProcedureID) (st st2 : PlannerState),
      spliceParentsFold pr st l = some st2 →
      st2.members = st.members ∧ st2.order = st.order ∧ st2.results = st.results ∧
      ∀ k, pdSig st2 k = pdSig st k := by
  intro l
  induction l with
  | nil =>
    intro st st2 h
    simp only [spliceParentsFold, Option.some_inj] at h
    subst h
    exact ⟨rfl, rfl, rfl, fun k => rfl⟩
  | cons id rest ih =>
    intro st st2 h
    simp only [spliceParentsFold] at h
    cases hlk : planLookup st id with
    | none => simp [hlk] at h
    | some parent =>
      simp only [hlk] at h
      obtain ⟨h1, h2, h3, h4⟩ := ih _ _ h
      obtain ⟨_, hl2⟩ := planLookup_some hlk
      refine ⟨h1, h2, h3, fun k => ?_⟩
      rw [h4 k]
      refine pdSig_heapUpdate_of_spec hl2 ?_ ?_ k <;> rfl

theorem spliceChildrenFold_preserves (pr : Procedure) :
    ∀ (l : List ProcedureID) (st st2 : PlannerState),
      spliceChildrenFold pr st l = some st2 →
      st2.members = st.members ∧ st2.order = st.order ∧ st2.results = st.results ∧
      ∀ k, pdSig st2 k = pdSig st k := by
  intro l
  induction l with
  | nil =>
    intro st st2 h
    simp only [spliceChildrenFold, Option.some_inj] at h
    subst h
    exact ⟨rfl, rfl, rfl, fun k => rfl⟩
  | cons id rest ih =>
    intro st st2 h
    simp only [spliceChildrenFold] at h
    cases hlk : planLookup st id with
    | none => simp [hlk] at h
    | some child =>
      simp only [hlk] at h
      obtain ⟨h1, h2, h3, h4⟩ := ih _ _ h
      obtain ⟨_, hl2⟩ := planLookup_some hlk
      refine ⟨h1, h2, h3, fun k => ?_⟩
      rw [h4 k]
      refine pdSig_heapUpdate_of_spec hl2 ?_ ?_ k <;> rfl

theorem removeProcedure_preserves {st st2 : PlannerState} {pr : Procedure}
    (h : removeProcedure st pr = some st2) :
    st2.members = deleteKey st.members pr.ID ∧
    st2.order = removeID st.order pr.ID ∧
    st2.results = st.results ∧
    ∀ k, pdSig st2 k = pdSig st k := by
  unfold removeProcedure at h
  cases hsp : spliceParentsFold pr
      { st with members := deleteKey st.members pr.ID, order := removeID st.order pr.ID }
      pr.Parents with
  | none => rw [hsp] at h; cases h
  | some stA =>
    rw [hsp] at h
    simp only [Option.some_bind] at h
    obtain ⟨a1, a2, a3, a4⟩ := spliceParentsFold_preserves pr pr.Parents _ stA hsp
    obtain ⟨b1, b2, b3, b4⟩ := spliceChildrenFold_preserves pr pr.Children stA st2 h
    refine ⟨?_, ?_, ?_, fun k => ?_⟩
    · rw [b1, a1]
    · rw [b2, a2]
    · rw [b3, a3]
    · rw [b4 k, a4 k]
      rfl

end plan

namespace plan

theorem planStep_preserves {fuel : Nat} {st : PlannerState} {id : ProcedureID}
    {st2 : PlannerState} (h : planStep fuel st id = some st2) :
    (∀ k, pdSig st2 k = pdSig st k) ∧
    (∀ x, x ∉ st.members → x ∉ st2.members) ∧
    (∀ x, x ∉ st.order → x ∉ st2.order) ∧
    (st.members.Nodup → st2.members.Nodup) ∧
    (st.order.Nodup → st2.order.Nodup) := by
  unfold planStep at h
  cases hlk : lookupProc st.heap id with
  | none => rw [hlk] at h; cases h
  | some pr =>
    simp only [hlk] at h
    cases hrl : pr.Spec.pushDownRule with
    | none =>
      rw [hrl] at h
      simp only [Option.some_inj] at h
      subst h
      exact ⟨fun k => rfl, fun x hx => hx, fun x hx => hx, fun hn => hn, fun hn => hn⟩
    | some rule =>
      simp only [hrl] at h
      cases hpds : pushDownAndSearch pr.Spec rule fuel st pr.Parents with
      | none => simp [hpds] at h
      | some stA =>
        simp only [hpds, Option.some_bind] at h
        cases hlk2 : lookupProc stA.heap id with
        | none => simp [hlk2] at h
        | some pr1 =>
          simp only [hlk2] at h
          obtain ⟨a1, a2, a3, a4⟩ := pds_preserves pr.Spec rule fuel st pr.Parents stA hpds
          obtain ⟨r1, r2, r3, r4⟩ := removeProcedure_preserves h
          refine ⟨fun k => (r4 k).trans (a4 k), ?_, ?_, ?_, ?_⟩
          · intro x hx
            rw [r1, a1]
            intro hm2
            exact hx (List.mem_of_mem_erase hm2)
          · intro x hx
            rw [r2, a2]
            intro hm2
            exact hx (mem_removeID hm2)
          · intro hn
            rw [r1, a1]
            exact hn.erase _
          · intro hn
            rw [r2, a2]
            exact removeID_nodup hn

theorem planStep_kills {fuel : Nat} {st : PlannerState} {id : ProcedureID}
    {st2 : PlannerState}
    (hsig : pdSig st id = some (id, true))
    (hmn : st.members.Nodup) (hon : st.order.Nodup)
    (h : planStep fuel st id = some st2) :
    id ∉ st2.members ∧ id ∉ st2.order := by
  unfold planStep at h
  unfold pdSig at hsig
  cases hlk : lookupProc st.heap id with
  | none => rw [hlk] at hsig; cases hsig
  | some pr =>
    simp only [hlk] at h
    rw [hlk] at hsig
    simp only [Option.map_some', Option.some_inj, Prod.mk.injEq] at hsig
    obtain ⟨hid, hsome⟩ := hsig
    cases hrl : pr.Spec.pushDownRule with
    | none =>
      rw [hrl] at hsome
      simp at hsome
    | some rule =>
      simp only [hrl] at h
      cases hpds : pushDownAndSearch pr.Spec rule fuel st pr.Parents with
      | none => simp [hpds] at h
      | some stA =>
        simp only [hpds, Option.some_bind] at h
        obtain ⟨a1, a2, a3, a4⟩ := pds_preserves pr.Spec rule fuel st pr.Parents stA hpds
        have hsigA := a4 id
        cases hlk2 : lookupProc stA.heap id with
        | none => simp [hlk2] at h
        | some pr1 =>
          simp only [hlk2] at h
          have hid1 : pr1.ID = id := by
            unfold pdSig at hsigA
            rw [hlk2, hlk] at hsigA
            simp only [Option.map_some', Option.some_inj, Prod.mk.injEq] at hsigA
            rw [hsigA.1, hid]
          obtain ⟨r1, r2, _, _⟩ := removeProcedure_preserves h
          constructor
          · rw [r1, a1, hid1]
            unfold deleteKey
            intro hm2
            exact (hmn.mem_erase_iff.mp hm2).1 rfl
          · rw [r2, a2, hid1]
            exact not_mem_removeID_self hon

theorem pushDownPass_append (fuel : Nat) :
    ∀ (l1 l2 : List ProcedureID) (st : PlannerState),
      pushDownPass fuel st (l1 ++ l2) =
        (pushDownPass fuel st l1).bind (fun stB => pushDownPass fuel stB l2) := by
  intro l1
  induction l1 with
  | nil =>
    intro l2 st
    simp [pushDownPass]
  | cons a rest ih =>
    intro l2 st
    simp only [List.cons_append, pushDownPass]
    cases planStep fuel st a <;> simp [ih]

theorem pushDownPass_preserves (fuel : Nat) :
    ∀ (l : List ProcedureID) (st st2 : PlannerState),
      pushDownPass fuel st l = some st2 →
      (∀ k, pdSig st2 k = pdSig st k) ∧
      (∀ x, x ∉ st.members → x ∉ st2.members) ∧
      (∀ x, x ∉ st.order → x ∉ st2.order) ∧
      (st.members.Nodup → st2.members.Nodup) ∧
      (st.order.Nodup → st2.order.Nodup) := by
  intro l
  induction l with
  | nil =>
    intro st st2 h
    simp only [pushDownPass, Option.some_inj] at h
    subst h
    exact ⟨fun k => rfl, fun x hx => hx, fun x hx => hx, fun hn => hn, fun hn => hn⟩
  | cons a rest ih =>
    intro st st2 h
    simp only [pushDownPass] at h
    cases hstep : planStep fuel st a with
    | none => rw [hstep] at h; cases h
    | some stA =>
      rw [hstep] at h
      simp only [Option.some_bind] at h
      obtain ⟨p1, p2, p3, p4, p5⟩ := planStep_preserves hstep
      obtain ⟨q1, q2, q3, q4, q5⟩ := ih stA st2 h
      exact ⟨fun k => (q1 k).trans (p1 k), fun x hx => q2 x (p2 x hx),
        fun x hx => q3 x (p3 x hx), fun hn => q4 (p4 hn), fun hn => q5 (p5 hn)⟩

theorem populate_facts :
    ∀ (l : List ProcedureID) (st st2 : PlannerState),
      populate st l = some st2 →
      st2.heap = st.heap ∧ st2.results = st.results ∧
      (st.members.Nodup → st2.members.Nodup) ∧
      ((∀ e ∈ st.heap, e.2.ID = e.1) → st2.order = st.order ++ l) := by
  intro l
  induction l with
  | nil =>
    intro st st2 h
    simp only [populate, Option.some_inj] at h
    subst h
    exact ⟨rfl, rfl, fun hn => hn, fun _ => by simp⟩
  | cons id rest ih =>
    intro st st2 h
    simp only [populate] at h
    cases hlk : lookupProc st.heap id with
    | none => simp [hlk] at h
    | some pr =>
      simp only [hlk] at h
      obtain ⟨h1, h2, h3, h4⟩ := ih _ _ h
      refine ⟨h1, h2, ?_, ?_⟩
      · intro hn
        exact h3 (insertKey_nodup hn)
      · intro hkc
        have hid : pr.ID = id := hkc _ (lookupProc_mem hlk)
        have h4b := h4 hkc
        rw [h4b, hid]
        simp

theorem computeResults_preserves :
    ∀ (l : List ProcedureID) (st st2 : PlannerState),
      computeResults st l = some st2 →
      st2.members = st.members ∧ st2.order = st.order := by
  intro l
  induction l with
  | nil =>
    intro st st2 h
    simp only [computeResults, Option.some_inj] at h
    subst h
    exact ⟨rfl, rfl⟩
  | cons id rest ih =>
    intro st st2 h
    simp only [computeResults] at h
    cases hlk : planLookup st id with
    | none => simp [hlk] at h
    | some pr =>
      simp only [hlk] at h
      obtain ⟨h1, h2⟩ := ih _ _ h
      by_cases hc : pr.Children.isEmpty <;> simp [hc] at h1 h2 <;> exact ⟨h1, h2⟩

end plan

/-! ## Claim theorems: planner removal (C1) -/

/-- Claim C1, counterexample: `where2` implements `PushDown`, its only
parent chain reaches the aggregate `sum1`, whose kind is neither the
rule's root (`select`) nor in its `Through` set — yet after planning
completes, `where2` appears neither among the plan's procedures nor in
the order. -/
theorem C1_counterexample :
    examples.exWhere2.Spec.pushDownRule =
      some ⟨functions.SelectKind, [functions.LimitKind, functions.RangeKind]⟩ ∧
    examples.exWhere2.Parents = [1] ∧
    examples.exSum1.Spec.Kind ≠ functions.SelectKind ∧
    plan.hasKind examples.exSum1.Spec.Kind
      [functions.LimitKind, functions.RangeKind] = false ∧
    (examples.exC1plan.map (fun st => (st.members.contains 2, st.order.contains 2))) =
      some (false, false) := by
  refine ⟨rfl, rfl, by decide, by decide, by decide⟩

/-- Claim C1, amended: the planner removes every procedure whose spec
implements `PushDown` from the plan unconditionally — even when the walk
of its parent chains reaches a procedure whose kind is neither the rule's
root nor in its `Through` set (so no pushdown was applied): after
planning completes, the procedure appears neither among the plan's
procedures nor in the order. -/
theorem C1_theorem :
    ∀ (fuel : Nat) (lp : plan.LogicalPlanSpec) (st : plan.PlannerState)
      (id : plan.ProcedureID) (pr : plan.Procedure),
      (∀ e ∈ lp.Procedures, e.2.ID = e.1) →
      lp.Order.Nodup →
      plan.lookupProc lp.Procedures id = some pr →
      id ∈ lp.Order →
      pr.Spec.pushDownRule.isSome = true →
      plan.planner.Plan fuel lp = some st →
      id ∉ st.members ∧ id ∉ st.order := by
  intro fuel lp st id pr hkc hnd hpr hmem hpd hplan
  unfold plan.planner.Plan at hplan
  cases hpop : plan.populate ⟨lp.Procedures, [], [], []⟩ lp.Order with
  | none => rw [hpop] at hplan; cases hplan
  | some st1 =>
    rw [hpop] at hplan
    simp only [Option.some_bind] at hplan
    cases hpass : plan.pushDownPass fuel st1 lp.Order with
    | none => rw [hpass] at hplan; cases hplan
    | some st2 =>
      rw [hpass] at hplan
      simp only [Option.some_bind] at hplan
      obtain ⟨hheap, hres, hmn, hord⟩ := plan.populate_facts lp.Order _ st1 hpop
      have hheap1 : st1.heap = lp.Procedures := hheap
      have hord1 : st1.order = lp.Order := by
        have := hord hkc
        simpa using this
      have hmn1 : st1.members.Nodup := hmn List.nodup_nil
      have hon1 : st1.order.Nodup := by rw [hord1]; exact hnd
      have hid : pr.ID = id := hkc _ (plan.lookupProc_mem hpr)
      have hsig1 : plan.pdSig st1 id = some (id, true) := by
        unfold plan.pdSig
        rw [hheap1, hpr]
        simp [hid, hpd]
      obtain ⟨l1, l2, horder⟩ := List.append_of_mem hmem
      rw [horder] at hpass
      rw [plan.pushDownPass_append] at hpass
      cases hp1 : plan.pushDownPass fuel st1 l1 with
      | none => rw [hp1] at hpass; cases hpass
      | some stA =>
        rw [hp1] at hpass
        simp only [Option.some_bind] at hpass
        obtain ⟨s1, _, _, s4, s5⟩ := plan.pushDownPass_preserves fuel l1 st1 stA hp1
        have hsigA : plan.pdSig stA id = some (id, true) := by rw [s1 id]; exact hsig1
        have hmnA : stA.members.Nodup := s4 hmn1
        have honA : stA.order.Nodup := s5 hon1
        simp only [plan.pushDownPass] at hpass
        cases hstep : plan.planStep fuel stA id with
        | none => rw [hstep] at hpass; cases hpass
        | some stB =>
          rw [hstep] at hpass
          simp only [Option.some_bind] at hpass
          obtain ⟨hkm, hko⟩ := plan.planStep_kills hsigA hmnA honA hstep
          obtain ⟨_, t2, t3, _, _⟩ := plan.pushDownPass_preserves fuel l2 stB st2 hpass
          obtain ⟨c1, c2⟩ := plan.computeResults_preserves st2.order st2 st hplan
          rw [c1, c2]
          exact ⟨t2 id hkm, t3 id hko⟩

/-- Claim C1, witness: the amended statement applied to the concrete
`select0 → sum1 → where2` plan. -/
theorem C1_witness :
    2 ∉ (examples.exC1plan.getD plan.emptyState).members ∧
    2 ∉ (examples.exC1plan.getD plan.emptyState).order := by
  refine C1_theorem 9 examples.exC1lp (examples.exC1plan.getD plan.emptyState) 2
    examples.exWhere2 (by decide) (by decide) rfl (by decide) rfl (by decide)

/-! ## Splice characterization (C3) -/

namespace plan

theorem contains_erase_ne {l : List ProcedureID} {a x : ProcedureID} (h : x ≠ a) :
    (l.erase a).contains x = l.contains x := by
  by_cases hc : x ∈ l
  · simp [(List.mem_erase_of_ne h).mpr hc, hc]
  · have h2 : x ∉ l.erase a := fun hm => hc (List.mem_of_mem_erase hm)
    simp [hc, h2]

theorem lookupProc_heapUpdate_self {st : PlannerState} {id : ProcedureID} {pp : Procedure}
    (q : Procedure) (hl : lookupProc st.heap id = some pp) :
    lookupProc (heapUpdate st id q).heap id = some q := by
  have hh : (heapUpdate st id q).heap = updateProc st.heap id q := rfl
  rw [hh, lookupProc_update_self, hl]
  rfl

theorem lookupProc_heapUpdate_ne {st : PlannerState} {id x : ProcedureID} (q : Procedure)
    (hx : x ≠ id) : lookupProc (heapUpdate st id q).heap x = lookupProc st.heap x := by
  have hh : (heapUpdate st id q).heap = updateProc st.heap id q := rfl
  rw [hh, lookupProc_update_ne _ _ hx]

theorem planLookup_heapUpdate_ne {st : PlannerState} {id x : ProcedureID} (q : Procedure)
    (hx : x ≠ id) : planLookup (heapUpdate st id q) x = planLookup st x := by
  unfold planLookup
  have hm : (heapUpdate st id q).members = st.members := rfl
  rw [hm, lookupProc_heapUpdate_ne q hx]

theorem spliceParentsFold_effect (pr : Procedure) :
    ∀ (l : List ProcedureID) (st st2 : PlannerState),
      spliceParentsFold pr st l = some st2 →
      l.Nodup →
      (∀ x ∈ l, ∃ q, planLookup st x = some q ∧
          lookupProc st2.heap x =
            some { q with Children := removeID q.Children pr.ID ++ pr.Children }) ∧
      (∀ k, k ∉ l → lookupProc st2.heap k = lookupProc st.heap k) ∧
      st2.members = st.members ∧ st2.order = st.order := by
  intro l
  induction l with
  | nil =>
    intro st st2 h _
    simp only [spliceParentsFold, Option.some_inj] at h
    subst h
    exact ⟨by simp, fun k _ => rfl, rfl, rfl⟩
  | cons id rest ih =>
    intro st st2 h hnd
    simp only [spliceParentsFold] at h
    cases hlk : planLookup st id with
    | none => simp [hlk] at h
    | some parent =>
      simp only [hlk] at h
      obtain ⟨hnotin, hndr⟩ := List.nodup_cons.mp hnd
      obtain ⟨e1, e2, e3, e4⟩ := ih _ _ h hndr
      obtain ⟨hc, hl⟩ := planLookup_some hlk
      refine ⟨?_, ?_, ?_, ?_⟩
      · intro x hx
        rcases List.mem_cons.mp hx with rfl | hx2
        · refine ⟨parent, hlk, ?_⟩
          rw [e2 x hnotin]
          exact lookupProc_heapUpdate_self _ hl
        · obtain ⟨q, hq1, hq2⟩ := e1 x hx2
          have hxid : x ≠ id := fun hxeq => hnotin (hxeq ▸ hx2)
          rw [planLookup_heapUpdate_ne _ hxid] at hq1
          exact ⟨q, hq1, hq2⟩
      · intro k hk
        have hkid : k ≠ id := fun hkeq => hk (hkeq ▸ List.mem_cons_self id rest)
        have hkrest : k ∉ rest := fun hkr => hk (List.mem_cons_of_mem _ hkr)
        rw [e2 k hkrest, lookupProc_heapUpdate_ne _ hkid]
      · rw [e3]
        rfl
      · rw [e4]
        rfl

theorem spliceChildrenFold_effect (pr : Procedure) :
    ∀ (l : List ProcedureID) (st st2 : PlannerState),
      spliceChildrenFold pr st l = some st2 →
      l.Nodup →
      (∀ x ∈ l, ∃ q, planLookup st x = some q ∧
          lookupProc st2.heap x =
            some { q with Parents := removeID q.Parents pr.ID ++ pr.Parents }) ∧
      (∀ k, k ∉ l → lookupProc st2.heap k = lookupProc st.heap k) ∧
      st2.members = st.members ∧ st2.order = st.order := by
  intro l
  induction l with
  | nil =>
    intro st st2 h _
    simp only [spliceChildrenFold, Option.some_inj] at h
    subst h
    exact ⟨by simp, fun k _ => rfl, rfl, rfl⟩
  | cons id rest ih =>
    intro st st2 h hnd
    simp only [spliceChildrenFold] at h
    cases hlk : planLookup st id with
    | none => simp [hlk] at h
    | some child =>
      simp only [hlk] at h
      obtain ⟨hnotin, hndr⟩ := List.nodup_cons.mp hnd
      obtain ⟨e1, e2, e3, e4⟩ := ih _ _ h hndr
      obtain ⟨hc, hl⟩ := planLookup_some hlk
      refine ⟨?_, ?_, ?_, ?_⟩
      · intro x hx
        rcases List.mem_cons.mp hx with rfl | hx2
        · refine ⟨child, hlk, ?_⟩
          rw [e2 x hnotin]
          exact lookupProc_heapUpdate_self _ hl
        · obtain ⟨q, hq1, hq2⟩ := e1 x hx2
          have hxid : x ≠ id := fun hxeq => hnotin (hxeq ▸ hx2)
          rw [planLookup_heapUpdate_ne _ hxid] at hq1
          exact ⟨q, hq1, hq2⟩
      · intro k hk
        have hkid : k ≠ id := fun hkeq => hk (hkeq ▸ List.mem_cons_self id rest)
        have hkrest : k ∉ rest := fun hkr => hk (List.mem_cons_of_mem _ hkr)
        rw [e2 k hkrest, lookupProc_heapUpdate_ne _ hkid]
      · rw [e3]
        rfl
      · rw [e4]
        rfl

end plan

/-! ## Claim theorems: removeProcedure splicing (C3) -/

/-- Claim C3, counterexample: removing the middle of the diamond
`P0 → {X1, C3}`, `X1 → C3` makes `P0`'s children `[3, 3]` and `C3`'s
parents `[0, 0]` — the spliced lists are not de-duplicated, refuting the
claim that no ID occurs twice in any resulting list. -/
theorem C3_counterexample :
    (examples.exC3res.bind
        (fun st => (plan.lookupProc st.heap 0).map plan.Procedure.Children)) =
      some [3, 3] ∧
    ¬ ([3, 3] : List plan.ProcedureID).Nodup ∧
    (examples.exC3res.bind
        (fun st => (plan.lookupProc st.heap 3).map plan.Procedure.Parents)) =
      some [0, 0] := by
  refine ⟨by decide, by decide, by decide⟩

/-- Claim C3, amended: with distinct, non-aliased parent and child lists,
`removeProcedure` deletes the removed ID from the plan map and order,
and splices edge lists by deleting the first occurrence of the removed
ID and appending the removed procedure's children (resp. parents) at the
end, preserving the order of the remaining entries; no de-duplication is
performed, so an ID may occur twice in a resulting list. -/
theorem C3_theorem :
    ∀ (st st2 : plan.PlannerState) (pr : plan.Procedure),
      pr.Parents.Nodup → pr.Children.Nodup →
      (∀ x ∈ pr.Parents, x ∉ pr.Children) →
      pr.ID ∉ pr.Parents → pr.ID ∉ pr.Children →
      plan.removeProcedure st pr = some st2 →
      st2.members = plan.deleteKey st.members pr.ID ∧
      st2.order = plan.removeID st.order pr.ID ∧
      (∀ x ∈ pr.Parents, ∃ q, plan.planLookup st x = some q ∧
          plan.lookupProc st2.heap x =
            some { q with Children := plan.removeID q.Children pr.ID ++ pr.Children }) ∧
      (∀ x ∈ pr.Children, ∃ q, plan.planLookup st x = some q ∧
          plan.lookupProc st2.heap x =
            some { q with Parents := plan.removeID q.Parents pr.ID ++ pr.Parents }) ∧
      (∀ k, k ∉ pr.Parents → k ∉ pr.Children →
        plan.lookupProc st2.heap k = plan.lookupProc st.heap k) := by
  intro st st2 pr hpn hcn hdisj hsp hsc h
  unfold plan.removeProcedure at h
  cases hspl : plan.spliceParentsFold pr
      { st with members := plan.deleteKey st.members pr.ID,
                order := plan.removeID st.order pr.ID }
      pr.Parents with
  | none => rw [hspl] at h; cases h
  | some stA =>
    rw [hspl] at h
    simp only [Option.some_bind] at h
    obtain ⟨a1, a2, a3, a4⟩ := plan.spliceParentsFold_effect pr pr.Parents _ stA hspl hpn
    obtain ⟨b1, b2, b3, b4⟩ := plan.spliceChildrenFold_effect pr pr.Children stA st2 h hcn
    have hmem1 : stA.members = plan.deleteKey st.members pr.ID := a3
    have hord1 : stA.order = plan.removeID st.order pr.ID := a4
    refine ⟨by rw [b3, hmem1], by rw [b4, hord1], ?_, ?_, ?_⟩
    · intro x hx
      have hxid : x ≠ pr.ID := fun he => hsp (he ▸ hx)
      have hxc : x ∉ pr.Children := hdisj x hx
      obtain ⟨q, hq1, hq2⟩ := a1 x hx
      have hq1b : plan.planLookup st x = some q := by
        rw [← hq1]
        simp only [plan.planLookup, plan.deleteKey]
        rw [plan.contains_erase_ne hxid]
      refine ⟨q, hq1b, ?_⟩
      rw [b2 x hxc]
      exact hq2
    · intro x hx
      have hxid : x ≠ pr.ID := fun he => hsc (he ▸ hx)
      have hxp : x ∉ pr.Parents := fun hxp2 => hdisj x hxp2 hx
      obtain ⟨q, hq1, hq2⟩ := b1 x hx
      have hq1b : plan.planLookup st x = some q := by
        rw [← hq1]
        simp only [plan.planLookup]
        rw [hmem1, a2 x hxp]
        simp only [plan.deleteKey]
        rw [plan.contains_erase_ne hxid]
      exact ⟨q, hq1b, hq2⟩
    · intro k hkp hkc
      rw [b2 k hkc, a2 k hkp]

/-- Claim C3, witness: the amended statement applied to the concrete
diamond, showing the computed members and order. -/
theorem C3_witness :
    (examples.exC3res.getD plan.emptyState).members =
      plan.deleteKey examples.exC3st.members 1 ∧
    (examples.exC3res.getD plan.emptyState).order =
      plan.removeID examples.exC3st.order 1 := by
  have h := C3_theorem examples.exC3st (examples.exC3res.getD plan.emptyState)
    examples.exX1 (by decide) (by decide) (by decide) (by decide) (by decide) (by decide)
  exact ⟨h.1, h.2.1⟩
